import Mathlib

set_option maxHeartbeats 1000000

namespace LoopPerf

/-!
Shallow embedding of `loop-perf/LoopPerforation.cpp`: the loop-perforation
discovery pass (`LoopCountPass`) and rewrite pass (`LoopPerforationPass`).
The IR model (blocks, loops, PHI nodes, the canonical-induction-variable
query, the simplified-form query) is the external LLVM collaborator the
passes consume; its answers appear here as data carried by the loop.  The
code of the two passes themselves — `StringifyLoop`, `isLoopPerforable`,
`handleLoop`, `runOnFunction`, `runOnLoop` — is translated line by line.
-/

/-- An LLVM value as far as the passes inspect one: an integer constant
(`ConstantInt`; LLVM uniques constants per type and bit pattern, so C++
pointer equality coincides with structural equality here) or a reference to
any other value (instruction, PHI node, argument) by identity, together with
the bit width of its integer type.  The `bits` of a constant are its bit
pattern, an integer in `\x5b0, 2^width)`. -/
inductive Value where
  | constInt (width : Nat) (bits : Int)
  | ref (id : Nat) (width : Nat)
deriving DecidableEq, Repr

/-- Bit width of the value's type (`Value::getType`). -/
def Value.width : Value → Nat
  | .constInt w _ => w
  | .ref _ w => w

/-- Two's-complement signed reading of a bit pattern in `\x5b0, 2^w)`. -/
def toSigned (w : Nat) (bits : Int) : Int :=
  if bits < 2 ^ (w - 1) then bits else bits - 2 ^ w

/-- Reduce an arbitrary integer to width `w` and read it back signed: the
effect of storing an integer in a `w`-bit machine word. -/
def wrapSigned (w : Nat) (v : Int) : Int :=
  toSigned w (v % 2 ^ w)

/-- Model of `ConstantInt::get(Ty, V, true)`: the integer constant of the
given bit width whose bit pattern is `V` reduced modulo `2^width` (the
`IsSigned = true` flag means a negative `V` is sign-extended, which is what
reduction modulo `2^width` yields). -/
def ConstantInt.get (w : Nat) (v : Int) : Value :=
  .constInt w (v % 2 ^ w)

/-- Signed integer value of a constant; `none` on a non-constant. -/
def signedValue : Value → Option Int
  | .constInt w b => some (toSigned w b)
  | .ref _ _ => none

/-- A basic block: an identity plus the text `BasicBlock::printAsOperand`
emits for it (for example `%2` or `%for.body`). -/
structure BasicBlock where
  id : Nat
  name : String
deriving DecidableEq, Repr

/-- The canonical induction variable PHI node of a loop as handed back by the
IR model (`Loop::getCanonicalInductionVariable`): its own identity as a
value, its incoming values in `incoming_values()` order, and its users in
`users()` order. -/
structure CanonicalPhi where
  self : Value
  incoming : List Value
  users : List Value
deriving DecidableEq, Repr

/-- The facts about one loop that the passes read from the IR model: member
blocks in `getBlocks()` order, the header, which blocks are latches and which
are exiting, the enclosing function's and module's names (reached through
`getHeader()->getParent()` and its `getParent()`), whether the loop is in
simplified form (`isLoopSimplifyForm`), and the canonical induction variable
when one exists. -/
structure LoopData where
  blocks : List BasicBlock
  header : BasicBlock
  latches : List BasicBlock
  exitingBlocks : List BasicBlock
  parentFuncName : String
  parentModName : String
  simplifyForm : Bool
  canonicalIV : Option CanonicalPhi
deriving DecidableEq, Repr

/-- A loop together with its nested sub-loops (`Loop::getSubLoops`). -/
inductive Loop where
  | mk (data : LoopData) (subs : List Loop)

/-- The loop's own data. -/
def Loop.data : Loop → LoopData
  | .mk d _ => d

/-- The loop's immediate sub-loops. -/
def Loop.subs : Loop → List Loop
  | .mk _ s => s

/-- A function: its name, its module's name, and its top-level loop forest in
`LoopInfo` iteration order. -/
structure Function where
  name : String
  modName : String
  topLoops : List Loop

/-- Whether `pat` occurs as a contiguous sublist of `hay`; C++
`hay.find(pat) != npos`. -/
def containsSub (hay pat : List Char) : Bool :=
  match hay with
  | [] => pat.isEmpty
  | _ :: t => pat.isPrefixOf hay || containsSub t pat

/-- Substring test on strings, the shape of `StringRef::find(...) != npos`. -/
def strContains (hay pat : String) : Bool :=
  containsSub hay.toList pat.toList

/-- Translation of `StringifyLoop` (the loop fingerprint): walk the member
blocks in order, comma-separating them, print each block and tag it with
`<header>`, `<latch>`, `<exiting>` as applicable. -/
def stringifyLoop (d : LoopData) : String :=
  d.blocks.enum.foldl
    (fun s ib =>
      let s := if ib.1 ≠ 0 then s ++ "," else s
      let s := s ++ ib.2.name
      let s := if ib.2 = d.header then s ++ "<header>" else s
      let s := if ib.2 ∈ d.latches then s ++ "<latch>" else s
      if ib.2 ∈ d.exitingBlocks then s ++ "<exiting>" else s)
    ""

/-- First-match lookup in an association list; the access pattern of both
`nlohmann::json::contains`/`operator\x5b\x5d` (json objects have unique keys)
and the binop table below. -/
def findKey {κ α : Type} [DecidableEq κ] (l : List (κ × α)) (k : κ) : Option α :=
  match l with
  | [] => none
  | p :: rest => if p.1 = k then some p.2 else findKey rest k

/-- The binary-operator instructions of the surrounding IR, keyed by value
identity: `getBinop env v = some ops` models `isa<BinaryOperator>(v)` holding
with operand list `ops` (`operands()` order), and `none` models
`dyn_cast<BinaryOperator>(v)` yielding null. -/
structure IREnv where
  bins : List (Nat × List Value)
deriving DecidableEq, Repr

/-- Operand list of `v` if `v` is a binary operator. -/
def getBinop (env : IREnv) (v : Value) : Option (List Value) :=
  match v with
  | .constInt _ _ => none
  | .ref i _ => findKey env.bins i

/-- Translation of the `ValueToChange` search in `isLoopPerforable` (lines
89-98): for each user of the PHI in order, scan the incoming values in order
and remember the first incoming equal to that user (the inner `break`); a
later user that also matches overwrites the remembered value. -/
def findValueToChange (phi : CanonicalPhi) : Option Value :=
  phi.users.foldl
    (fun acc user =>
      match phi.incoming.find? (fun inc => decide (inc = user)) with
      | some inc => some inc
      | none => acc)
    none

/-- Translation of the identical `ValueToChange` search repeated inside
`LoopPerforationPass::runOnLoop` (lines 193-202). -/
def findValueToChangeRW (phi : CanonicalPhi) : Option Value :=
  phi.users.foldl
    (fun acc user =>
      match phi.incoming.find? (fun inc => decide (inc = user)) with
      | some inc => some inc
      | none => acc)
    none

/-- Translation of `isLoopPerforable`: reject loops in functions whose name
contains `NO_PERF`, loops not in simplified form, loops with no canonical
induction variable, loops where no incoming value of the PHI is also a user
of the PHI, and loops whose update value is not a binary operator. -/
def isLoopPerforable (env : IREnv) (d : LoopData) : Bool :=
  if strContains d.parentFuncName "NO_PERF" = true then false
  else if d.simplifyForm = false then false
  else
    match d.canonicalIV with
    | none => false
    | some phi =>
      match findValueToChange phi with
      | none => false
      | some valueToChange =>
        if (getBinop env valueToChange).isSome = false then false
        else true

/-- Update-or-insert on an association list: apply `upd` to the value at the
first occurrence of `k`, or to the default `d` appending a fresh entry when
`k` is absent — the effect of `nlohmann::json::operator\x5b\x5d` creating
missing keys on write. -/
def setAssoc {κ α : Type} [DecidableEq κ] (l : List (κ × α)) (k : κ) (d : α) (upd : α → α) : List (κ × α) :=
  match l with
  | [] => [(k, upd d)]
  | p :: rest => if p.1 = k then (p.1, upd p.2) :: rest else p :: setAssoc rest k d upd

/-- The Catalog the discovery pass accumulates: module name, then function
name, then the set of loop fingerprints recorded under them.  Each recorded
fingerprint maps to the empty placeholder `\x7b\x7d` in the JSON, so presence
of the fingerprint is the whole content of an entry. -/
abbrev Catalog := List (String × List (String × List String))

/-- Effect of `j\x5bmod\x5d\x5bfn\x5d\x5bfp\x5d = \x7b\x7d` on the catalog. -/
def catInsert (cat : Catalog) (m f fp : String) : Catalog :=
  setAssoc cat m []
    (fun fns => setAssoc fns f [] (fun fps => if fp ∈ fps then fps else fps ++ [fp]))

/-- Whether the catalog has an entry for the triple `(m, f, fp)`. -/
def catContains (cat : Catalog) (m f fp : String) : Bool :=
  match findKey cat m with
  | none => false
  | some fns =>
    match findKey fns f with
    | none => false
    | some fps => decide (fp ∈ fps)

mutual
/-- Translation of `LoopCountPass::handleLoop`: if the loop is perforable,
count it and set `j\x5bmodule\x5d\x5bfunction\x5d\x5bfingerprint\x5d = \x7b\x7d`;
then recurse into the sub-loops regardless of the parent's eligibility. -/
def handleLoop (env : IREnv) (modName fnName : String) (L : Loop) (st : Catalog × Nat) :
    Catalog × Nat :=
  match L with
  | .mk d subs =>
    let st1 :=
      if isLoopPerforable env d = true then
        (catInsert st.1 modName fnName (stringifyLoop d), st.2 + 1)
      else st
    handleLoops env modName fnName subs st1

/-- Sequential `handleLoop` over a list of loops, in order. -/
def handleLoops (env : IREnv) (modName fnName : String) (Ls : List Loop) (st : Catalog × Nat) :
    Catalog × Nat :=
  match Ls with
  | [] => st
  | L :: rest => handleLoops env modName fnName rest (handleLoop env modName fnName L st)
end

mutual
/-- A loop together with all of its transitive sub-loops. -/
def allLoops : Loop → List Loop
  | .mk d subs => .mk d subs :: allLoopsList subs

/-- All loops of a forest, transitively. -/
def allLoopsList : List Loop → List Loop
  | [] => []
  | L :: rest => allLoops L ++ allLoopsList rest
end

/-- Translation of `LoopCountPass::runOnFunction`: fold `handleLoop` over the
function's top-level loops starting from a fresh counter, and report "no
change" (`false`).  The catalog is the pass's only accumulating state; the
single serialization of it happens at pass teardown (file output, outside
this model). -/
def runOnFunction (env : IREnv) (F : Function) (cat : Catalog) : Catalog × Bool :=
  ((handleLoops env F.modName F.name F.topLoops (cat, 0)).1, false)

/-- The host pass manager's traversal: `runOnFunction` on each function of
the module in order, threading the accumulated catalog. -/
def runOnModule (env : IREnv) (fns : List Function) (cat : Catalog) : Catalog :=
  fns.foldl (fun c F => (runOnFunction env F c).1) cat

/-- The rate table read at `LoopPerforationPass` construction: module name →
function name → loop fingerprint → integer rate.  An absent rates file gives
the empty table. -/
abbrev RateTable := List (String × List (String × List (String × Int)))

/-- The three-level lookup `j\x5bm\x5d\x5bf\x5d\x5bfp\x5d` on the rate table. -/
def lookupRate (tbl : RateTable) (m f fp : String) : Option Int :=
  match findKey tbl m with
  | none => none
  | some fns =>
    match findKey fns f with
    | none => none
    | some fps => findKey fps fp

/-- The membership test of lines 183-185: `j.contains(m)` and
`j\x5bm\x5d.contains(f)` and `j\x5bm\x5d\x5bf\x5d.contains(fp)`. -/
def rtContains (tbl : RateTable) (m f fp : String) : Bool :=
  (lookupRate tbl m f fp).isSome

/-- Outcome of one `LoopPerforationPass::runOnLoop` invocation.  `skipped` is
the early `return false` with the loop untouched; `crash` is undefined
behaviour from dereferencing a null `PHI`, `ValueToChange` or `Increment`;
`changed increment newOperands` is `return true` having replaced one operand,
with `newOperands` the increment's operand list after the write `Op = NewInc`;
`fellThrough` is the trailing "should never reach here" `return false` after
scanning every operand without rewriting. -/
inductive RunResult where
  | skipped
  | crash
  | changed (increment : Value) (newOperands : List Value)
  | fellThrough
deriving DecidableEq, Repr

/-- The `LoopRate` computed at lines 208-211: `int LoopRate = 1`, overwritten
by the table entry — narrowed to a 32-bit C++ `int` — when the table is
non-empty.  The `none` arm is unreachable behind the membership test of lines
183-185 (there `nlohmann` would insert a null and throw on conversion). -/
def effectiveRate (tbl : RateTable) (m f fp : String) : Int :=
  if tbl.isEmpty then 1
  else
    match lookupRate tbl m f fp with
    | some r => wrapSigned 32 r
    | none => 1

/-- Translation of the operand loop of lines 205-219: skip operands equal to
the PHI; at the first other operand, compute the rate (`1` if the whole table
is empty, otherwise the table entry narrowed to a C++ `int`), build a signed
constant of the operand's own type, overwrite the operand and return.  If
every operand equals the PHI the scan falls through. -/
def rewriteScan (tbl : RateTable) (m f fp : String) (phiV : Value) :
    List Value → Option (List Value)
  | [] => none
  | op :: rest =>
    if op = phiV then
      (rewriteScan tbl m f fp phiV rest).map (fun rest1 => op :: rest1)
    else
      some (ConstantInt.get op.width (effectiveRate tbl m f fp) :: rest)

/-- Translation of `LoopPerforationPass::runOnLoop`: skip any loop whose
`(module, function, fingerprint)` key is absent from the rate table; then
re-derive the canonical induction variable and its update operation — with no
null checks, so a failing derivation is undefined behaviour — and rewrite the
first non-PHI operand of the increment. -/
def runOnLoop (tbl : RateTable) (env : IREnv) (L : Loop) : RunResult :=
  if rtContains tbl L.data.parentModName L.data.parentFuncName (stringifyLoop L.data) = false then
    RunResult.skipped
  else
    match L.data.canonicalIV with
    | none => RunResult.crash
    | some phi =>
      match findValueToChangeRW phi with
      | none => RunResult.crash
      | some valueToChange =>
        match getBinop env valueToChange with
        | none => RunResult.crash
        | some ops =>
          match rewriteScan tbl L.data.parentModName L.data.parentFuncName
              (stringifyLoop L.data) phi.self ops with
          | some newOps => RunResult.changed valueToChange newOps
          | none => RunResult.fellThrough

/-- Contract of the external IR model's canonical-IV query (LLVM's
`Loop::getCanonicalInductionVariable`), which this repository calls but does
not define: the returned node is a PHI — not a constant — and any incoming
value of the PHI that is also a user of the PHI is the canonical update
instruction `add PHI, 1`, an add whose first operand is the PHI itself and
whose second operand is the integer constant one. -/
def CanonicalIVGuarantee (env : IREnv) (phi : CanonicalPhi) : Prop :=
  (∃ i w, phi.self = Value.ref i w) ∧
  (∀ v, v ∈ phi.incoming → v ∈ phi.users →
    ∃ w, getBinop env v = some [phi.self, Value.constInt w 1])

/-! Concrete instances used by the witnesses and counterexamples: a single
simplified single-block loop in function `foo` of module `m`, with canonical
induction variable `%iv = Value.ref 0` updated by the binary operation
`Value.ref 1` computing `add %iv, 1`. -/

/-- The one basic block of the sample loop. -/
def bbW : BasicBlock := ⟨0, "%2"⟩

/-- The sample loop's canonical induction variable: incoming values are the
constant `0` (from the preheader) and the add instruction (from the latch);
its users list holds the add instruction. -/
def phiW : CanonicalPhi :=
  ⟨Value.ref 0 32, [Value.constInt 32 0, Value.ref 1 32], [Value.ref 1 32]⟩

/-- The sample IR: value `1` is the binary operation `add %iv, 1`. -/
def envW : IREnv := ⟨[(1, [Value.ref 0 32, Value.constInt 32 1])]⟩

/-- The sample loop's data: one block that is header, latch and exiting, in
function `foo` of module `m`, simplified, with `phiW` as canonical IV. -/
def dW : LoopData := ⟨[bbW], bbW, [bbW], [bbW], "foo", "m", true, some phiW⟩

/-- The sample loop (no sub-loops). -/
def LW : Loop := .mk dW []

/-- The fingerprint `stringifyLoop dW` computes for the sample loop. -/
def fpW : String := "%2<header><latch><exiting>"

/-- The sample loop's data relocated into a function whose name contains
`NO_PERF`; all structural fields are unchanged. -/
def dNP : LoopData := ⟨[bbW], bbW, [bbW], [bbW], "fooNO_PERFx", "m", true, some phiW⟩

/-- The `NO_PERF` variant of the sample loop. -/
def LNP : Loop := .mk dNP []

/-- A rate table assigning rate `4` to the sample loop. -/
def tblW : RateTable := [("m", [("foo", [(fpW, 4)])])]

/-- A rate table with entries only under a different module name, so the
sample loop's key is absent. -/
def tblAbsent : RateTable := [("other", [("foo", [(fpW, 4)])])]

/-- The operand list of the sample increment. -/
def opsW : List Value := [Value.ref 0 32, Value.constInt 32 1]

/-! Helper lemmas. -/

/-- The `ValueToChange` search of the rewrite pass is the same computation as
the one inside `isLoopPerforable` (the source duplicates the code verbatim). -/
theorem findValueToChangeRW_eq (phi : CanonicalPhi) :
    findValueToChangeRW phi = findValueToChange phi := rfl

/-- Lookup in the empty rate table always misses. -/
theorem lookupRate_nil (m f fp : String) : lookupRate [] m f fp = none := rfl

/-- The membership test fails on the empty rate table. -/
theorem rtContains_nil (m f fp : String) : rtContains [] m f fp = false := rfl

/-- When the membership test fails, `runOnLoop` is the early `return false`. -/
theorem runOnLoop_eq_skipped (tbl : RateTable) (env : IREnv) (L : Loop)
    (h : rtContains tbl L.data.parentModName L.data.parentFuncName (stringifyLoop L.data) = false) :
    runOnLoop tbl env L = RunResult.skipped := by
  simp [runOnLoop, h]

/-- Extensional characterization of `isLoopPerforable`: the conjunction of the
five eligibility conditions. -/
theorem elig_iff (env : IREnv) (d : LoopData) :
    isLoopPerforable env d = true ↔
      (strContains d.parentFuncName "NO_PERF" = false ∧ d.simplifyForm = true ∧
       ∃ phi, d.canonicalIV = some phi ∧
         ∃ v, findValueToChange phi = some v ∧ (getBinop env v).isSome = true) := by
  unfold isLoopPerforable
  cases hc : strContains d.parentFuncName "NO_PERF"
  · cases hs : d.simplifyForm
    · simp
    · cases hphi : d.canonicalIV with
      | none => simp
      | some phi =>
        cases hv : findValueToChange phi with
        | none => simp [hv]
        | some v =>
          cases hb : (getBinop env v).isSome
          · simp [hv, hb]
          · simp [hv, hb]
  · simp

/-- Lookup after update-or-insert: the updated key reads back the updated
value, every other key is untouched. -/
theorem findKey_setAssoc {κ α : Type} [DecidableEq κ] (l : List (κ × α)) (k k1 : κ) (d : α)
    (upd : α → α) :
    findKey (setAssoc l k d upd) k1 =
      if k1 = k then some (upd ((findKey l k).getD d)) else findKey l k1 := by
  induction l with
  | nil =>
    by_cases h : k1 = k
    · subst h; simp [setAssoc, findKey]
    · simp [setAssoc, findKey, h, Ne.symm h]
  | cons p rest ih =>
    by_cases hp : p.1 = k
    · by_cases h1 : k1 = k
      · subst h1; simp [setAssoc, findKey, hp]
      · simp [setAssoc, findKey, hp, h1, Ne.symm h1]
    · by_cases h2 : p.1 = k1
      · have hk : ¬ k1 = k := fun hh => hp (h2.trans hh)
        simp [setAssoc, findKey, hp, h2, hk]
      · simp [setAssoc, findKey, hp, h2, ih]

/-- Normal form for catalog membership: read through the two levels with `\x5b\x5d`
defaults, then test the fingerprint list. -/
theorem catContains_getD (cat : Catalog) (m f fp : String) :
    catContains cat m f fp =
      decide (fp ∈ (findKey ((findKey cat m).getD []) f).getD []) := by
  unfold catContains
  cases hm : findKey cat m with
  | none => simp [findKey]
  | some fns =>
    cases hf : findKey fns f with
    | none => simp [hf]
    | some fps => simp [hf]

/-- Membership after a catalog insertion: exactly the old entries plus the
inserted triple. -/
theorem catContains_catInsert (cat : Catalog) (m f fp m1 f1 fp1 : String) :
    catContains (catInsert cat m f fp) m1 f1 fp1 = true ↔
      (catContains cat m1 f1 fp1 = true ∨ (m = m1 ∧ f = f1 ∧ fp = fp1)) := by
  rw [catContains_getD, catContains_getD]
  unfold catInsert
  simp only [findKey_setAssoc]
  by_cases hm : m1 = m
  · subst hm
    rw [if_pos rfl]
    simp only [Option.getD_some, findKey_setAssoc]
    by_cases hf : f1 = f
    · subst hf
      rw [if_pos rfl]
      simp only [Option.getD_some]
      by_cases hin : fp ∈ (findKey ((findKey cat m1).getD []) f1).getD []
      · rw [if_pos hin]
        constructor
        · intro h; exact Or.inl h
        · rintro (h | ⟨-, -, h⟩)
          · exact h
          · subst h; simpa using hin
      · rw [if_neg hin]
        simp only [decide_eq_true_eq, List.mem_append, List.mem_singleton]
        constructor
        · rintro (h | h)
          · exact Or.inl h
          · exact Or.inr ⟨trivial, trivial, h.symm⟩
        · rintro (h | ⟨-, -, h⟩)
          · exact Or.inl h
          · exact Or.inr h.symm
    · rw [if_neg hf]
      simp [Ne.symm hf]
  · rw [if_neg hm]
    simp [Ne.symm hm]

/-- Unfolding `allLoops` at a constructor. -/
theorem allLoops_mk (d : LoopData) (subs : List Loop) :
    allLoops (.mk d subs) = .mk d subs :: allLoopsList subs := by
  rw [allLoops]

mutual
/-- After `handleLoop`, the catalog holds exactly its old entries plus, under
the keys handed to it, the fingerprints of the eligible loops of the visited
subtree — every loop of the subtree is reached, eligible parent or not. -/
theorem handleLoop_spec (env : IREnv) (mo fn m f fp : String) (L : Loop) (st : Catalog × Nat) :
    catContains (handleLoop env mo fn L st).1 m f fp = true ↔
      (catContains st.1 m f fp = true ∨
        (mo = m ∧ fn = f ∧ ∃ Lx ∈ allLoops L,
          isLoopPerforable env Lx.data = true ∧ stringifyLoop Lx.data = fp)) := by
  cases L with
  | mk d subs =>
    rw [handleLoop, allLoops_mk]
    by_cases helig : isLoopPerforable env d = true
    · rw [if_pos helig, handleLoops_spec env mo fn m f fp subs _]
      rw [catContains_catInsert]
      simp only [List.mem_cons, Loop.data, helig]
      constructor
      · rintro ((h | ⟨h1, h2, h3⟩) | ⟨h1, h2, Lx, hLx, he, hfp⟩)
        · exact Or.inl h
        · exact Or.inr ⟨h1, h2, .mk d subs, Or.inl rfl, helig, h3⟩
        · exact Or.inr ⟨h1, h2, Lx, Or.inr hLx, he, hfp⟩
      · rintro (h | ⟨h1, h2, Lx, hLx | hLx, he, hfp⟩)
        · exact Or.inl (Or.inl h)
        · subst hLx; exact Or.inl (Or.inr ⟨h1, h2, hfp⟩)
        · exact Or.inr ⟨h1, h2, Lx, hLx, he, hfp⟩
    · rw [if_neg helig, handleLoops_spec env mo fn m f fp subs st]
      simp only [List.mem_cons]
      constructor
      · rintro (h | ⟨h1, h2, Lx, hLx, he, hfp⟩)
        · exact Or.inl h
        · exact Or.inr ⟨h1, h2, Lx, Or.inr hLx, he, hfp⟩
      · rintro (h | ⟨h1, h2, Lx, hLx | hLx, he, hfp⟩)
        · exact Or.inl h
        · subst hLx; exact absurd he helig
        · exact Or.inr ⟨h1, h2, Lx, hLx, he, hfp⟩

/-- The analogue of `handleLoop_spec` for a list of loops. -/
theorem handleLoops_spec (env : IREnv) (mo fn m f fp : String) (Ls : List Loop)
    (st : Catalog × Nat) :
    catContains (handleLoops env mo fn Ls st).1 m f fp = true ↔
      (catContains st.1 m f fp = true ∨
        (mo = m ∧ fn = f ∧ ∃ Lx ∈ allLoopsList Ls,
          isLoopPerforable env Lx.data = true ∧ stringifyLoop Lx.data = fp)) := by
  cases Ls with
  | nil => rw [handleLoops, allLoopsList]; simp
  | cons L rest =>
    rw [handleLoops, allLoopsList, handleLoops_spec env mo fn m f fp rest _,
      handleLoop_spec env mo fn m f fp L st]
    simp only [List.mem_append]
    constructor
    · rintro ((h | ⟨h1, h2, Lx, hLx, he, hfp⟩) | ⟨h1, h2, Lx, hLx, he, hfp⟩)
      · exact Or.inl h
      · exact Or.inr ⟨h1, h2, Lx, Or.inl hLx, he, hfp⟩
      · exact Or.inr ⟨h1, h2, Lx, Or.inr hLx, he, hfp⟩
    · rintro (h | ⟨h1, h2, Lx, hLx | hLx, he, hfp⟩)
      · exact Or.inl (Or.inl h)
      · exact Or.inl (Or.inr ⟨h1, h2, Lx, hLx, he, hfp⟩)
      · exact Or.inr ⟨h1, h2, Lx, hLx, he, hfp⟩
end

/-- `runOnFunction` adds exactly the eligible loops of the function, keyed by
its module's and its own name. -/
theorem runOnFunction_spec (env : IREnv) (F : Function) (cat : Catalog) (m f fp : String) :
    catContains (runOnFunction env F cat).1 m f fp = true ↔
      (catContains cat m f fp = true ∨
        (F.modName = m ∧ F.name = f ∧ ∃ Lx ∈ allLoopsList F.topLoops,
          isLoopPerforable env Lx.data = true ∧ stringifyLoop Lx.data = fp)) :=
  handleLoops_spec env F.modName F.name m f fp F.topLoops (cat, 0)

/-- A full module traversal adds exactly the eligible loops of its functions. -/
theorem runOnModule_spec (env : IREnv) (fns : List Function) (cat : Catalog) (m f fp : String) :
    catContains (runOnModule env fns cat) m f fp = true ↔
      (catContains cat m f fp = true ∨
        ∃ F ∈ fns, F.modName = m ∧ F.name = f ∧ ∃ Lx ∈ allLoopsList F.topLoops,
          isLoopPerforable env Lx.data = true ∧ stringifyLoop Lx.data = fp) := by
  induction fns generalizing cat with
  | nil => simp [runOnModule]
  | cons F rest ih =>
    rw [show runOnModule env (F :: rest) cat = runOnModule env rest (runOnFunction env F cat).1
        from rfl,
      ih, runOnFunction_spec]
    simp only [List.mem_cons]
    constructor
    · rintro ((h | h) | ⟨G, hG, hrest⟩)
      · exact Or.inl h
      · exact Or.inr ⟨F, Or.inl rfl, h⟩
      · exact Or.inr ⟨G, Or.inr hG, hrest⟩
    · rintro (h | ⟨G, hG | hG, hrest⟩)
      · exact Or.inl (Or.inl h)
      · subst hG; exact Or.inl (Or.inr hrest)
      · exact Or.inr ⟨G, hG, hrest⟩

/-- An integer already representable in `w` signed bits survives the
round-trip through a `w`-bit word unchanged. -/
theorem wrapSigned_eq_self (w : Nat) (R : Int) (hw : 0 < w)
    (hlo : -(2 ^ (w - 1)) ≤ R) (hhi : R < 2 ^ (w - 1)) :
    wrapSigned w R = R := by
  have h2 : (2 : Int) ^ (w - 1) * 2 = 2 ^ w := by
    rw [← pow_succ]; congr 1; omega
  have hM : (0 : Int) < 2 ^ (w - 1) := pow_pos (by norm_num) _
  unfold wrapSigned toSigned
  rcases le_or_lt 0 R with hR | hR
  · rw [Int.emod_eq_of_lt hR (by omega), if_pos hhi]
  · have hmod : R % (2 ^ w) = R + 2 ^ w := by
      have h1 : (R + 2 ^ w * 1) % (2 ^ w) = R % (2 ^ w) :=
        Int.add_mul_emod_self_left R (2 ^ w) 1
      rw [mul_one] at h1
      rw [← h1, Int.emod_eq_of_lt (by omega) (by omega)]
    rw [hmod, if_neg (by omega)]
    omega

/-- A rate table with a hit is non-empty, so the computed `LoopRate` is the
stored entry narrowed to a C++ `int`. -/
theorem effectiveRate_of_lookup (tbl : RateTable) (m f fp : String) (R : Int)
    (h : lookupRate tbl m f fp = some R) :
    effectiveRate tbl m f fp = wrapSigned 32 R := by
  have hne : tbl.isEmpty = false := by
    cases htbl : tbl.isEmpty
    · rfl
    · rw [List.isEmpty_iff.1 htbl] at h
      rw [lookupRate_nil] at h
      exact Option.noConfusion h
  unfold effectiveRate
  rw [hne, h]
  simp

/-- A table hit makes the membership test of lines 183-185 succeed. -/
theorem rtContains_of_lookup (tbl : RateTable) (m f fp : String) (R : Int)
    (h : lookupRate tbl m f fp = some R) : rtContains tbl m f fp = true := by
  unfold rtContains
  rw [h]
  rfl

/-- The operand scan of lines 205-219, characterized: if position `i` holds
the first operand different from the PHI, the scan rewrites exactly that
position to the fresh constant of that operand's type and leaves the rest of
the list alone. -/
theorem rewriteScan_spec (tbl : RateTable) (m f fp : String) (phiV : Value) :
    ∀ (ops : List Value) (i : Nat) (op : Value),
      (∀ k, k < i → ops.get? k = some phiV) →
      ops.get? i = some op → op ≠ phiV →
      rewriteScan tbl m f fp phiV ops =
        some (ops.set i (ConstantInt.get op.width (effectiveRate tbl m f fp)))
  | [], i, op, _, hget, _ => by simp [List.get?] at hget
  | o :: rest, 0, op, _, hget, hne => by
    simp only [List.get?, Option.some.injEq] at hget
    subst hget
    rw [rewriteScan, if_neg hne, List.set_cons_zero]
  | o :: rest, i + 1, op, hbefore, hget, hne => by
    have h0 : o = phiV := by
      have h := hbefore 0 (Nat.succ_pos i)
      simpa [List.get?] using h
    rw [rewriteScan, if_pos h0,
      rewriteScan_spec tbl m f fp phiV rest i op
        (fun k hk => by
          have h := hbefore (k + 1) (by omega)
          simpa [List.get?] using h)
        (by simpa [List.get?] using hget) hne]
    rfl

/-- Any value the `ValueToChange` fold settles on is both an incoming value
and a user of the PHI. -/
theorem fvtc_foldl_aux (incoming : List Value) :
    ∀ (us : List Value) (acc : Option Value) (v : Value),
      us.foldl
        (fun acc user =>
          match incoming.find? (fun inc => decide (inc = user)) with
          | some inc => some inc
          | none => acc) acc = some v →
      acc = some v ∨ ∃ u ∈ us, v ∈ incoming ∧ v = u
  | [], acc, v, h => Or.inl h
  | u :: us, acc, v, h => by
    rw [List.foldl_cons] at h
    rcases fvtc_foldl_aux incoming us _ v h with hstep | ⟨u1, hu1, hvin, hveq⟩
    · cases hfind : incoming.find? (fun inc => decide (inc = u)) with
      | none => rw [hfind] at hstep; exact Or.inl hstep
      | some inc =>
        rw [hfind] at hstep
        have hv : v = inc := (Option.some.inj hstep).symm
        subst hv
        have hmem := List.mem_of_find?_eq_some hfind
        have hp : v = u := by
          have h1 := List.find?_some hfind
          simpa using h1
        exact Or.inr ⟨u, List.mem_cons_self u us, hmem, hp⟩
    · exact Or.inr ⟨u1, List.mem_cons_of_mem u hu1, hvin, hveq⟩

/-- The found `ValueToChange` is an incoming value of the PHI that is also
one of the PHI's users. -/
theorem findValueToChange_mem (phi : CanonicalPhi) (v : Value)
    (h : findValueToChange phi = some v) : v ∈ phi.incoming ∧ v ∈ phi.users := by
  rcases fvtc_foldl_aux phi.incoming phi.users none v h with h0 | ⟨u, hu, hvin, hveq⟩
  · exact Option.noConfusion h0
  · exact ⟨hvin, hveq ▸ hu⟩

/-! Claim theorems. -/

/-- C1 counterexample: the sample loop is cataloged as eligible by the
Discovery Pass, yet with the empty rate table the Rewrite Pass skips it (the
membership test fails first), and in particular performs no rewrite at all —
refuting the claim that every Catalog-eligible loop's increment is replaced
by the constant `1` when no Rate Table file is present. -/
theorem C1_cex_empty_table_skips :
    isLoopPerforable envW LW.data = true ∧
    runOnLoop [] envW LW = RunResult.skipped ∧
    ∀ v ops, runOnLoop [] envW LW ≠ RunResult.changed v ops := by
  have h0 : runOnLoop [] envW LW = RunResult.skipped := by decide
  exact ⟨by decide, h0, fun v ops h => by rw [h0] at h; exact RunResult.noConfusion h⟩

/-- C1 amended: with the rate table empty (no Rate Table file present), the
Rewrite Pass skips every loop unchanged at the catalog-membership check; the
rate-1 default inside the mutation path is unreachable for an empty table. -/
theorem C1_empty_table_always_skips (env : IREnv) (L : Loop) :
    runOnLoop [] env L = RunResult.skipped :=
  runOnLoop_eq_skipped [] env L (rtContains_nil _ _ _)

/-- C3: a function whose name contains `NO_PERF` is excluded from both
passes.  For any loop whose enclosing function name contains `NO_PERF`,
`isLoopPerforable` is false (so the Discovery Pass catalogs nothing for it);
and when the rate table's entries for that function all stem from a Discovery
Pass catalog of a module (whose loops carry their functions' names), the
Rewrite Pass's membership test fails for such a loop, so `runOnLoop` skips it
without mutation. -/
theorem C3_noperf_fully_excluded (env envd : IREnv) (L : Loop) (tbl : RateTable)
    (fns : List Function)
    (hname : strContains L.data.parentFuncName "NO_PERF" = true)
    (hcoh : ∀ F ∈ fns, ∀ Lx ∈ allLoopsList F.topLoops, Lx.data.parentFuncName = F.name)
    (htbl : ∀ fp, rtContains tbl L.data.parentModName L.data.parentFuncName fp = true →
      catContains (runOnModule envd fns []) L.data.parentModName L.data.parentFuncName fp = true) :
    isLoopPerforable env L.data = false ∧ runOnLoop tbl env L = RunResult.skipped := by
  constructor
  · simp [isLoopPerforable, hname]
  · apply runOnLoop_eq_skipped
    cases hrt : rtContains tbl L.data.parentModName L.data.parentFuncName (stringifyLoop L.data)
    · rfl
    · exfalso
      have hc := htbl _ hrt
      rw [runOnModule_spec] at hc
      rcases hc with hc | ⟨F, hF, _, hf, Lx, hLx, helig, _⟩
      · simp [catContains, findKey] at hc
      · have hx := hcoh F hF Lx hLx
        rcases (elig_iff envd Lx.data).1 helig with ⟨hfree, -⟩
        rw [hx, hf, hname] at hfree
        exact Bool.noConfusion hfree

/-- C3 witness: the sample `NO_PERF` loop against the empty table (whose
entries — there are none — all stem from a discovery run over no functions). -/
theorem C3_noperf_fully_excluded_witness :
    strContains LNP.data.parentFuncName "NO_PERF" = true ∧
    isLoopPerforable envW LNP.data = false ∧ runOnLoop [] envW LNP = RunResult.skipped := by
  refine ⟨by decide, ?_⟩
  exact C3_noperf_fully_excluded envW envW LNP [] []
    (by decide)
    (fun F hF => absurd hF (List.not_mem_nil F))
    (fun fp h => by rw [rtContains_nil] at h; exact Bool.noConfusion h)

/-- C4: after a Discovery Pass run over a module (starting from the empty
catalog), the catalog contains the triple `(m, f, fp)` exactly when some
function of the module has module name `m` and function name `f` and some
loop anywhere in its loop forest — sub-loops of ineligible parents included —
is eligible and fingerprints to `fp`.  Each recorded fingerprint carries the
empty placeholder, which the `Catalog` type renders as bare membership. -/
theorem C4_catalog_exactness (env : IREnv) (fns : List Function) (m f fp : String) :
    catContains (runOnModule env fns []) m f fp = true ↔
      ∃ F ∈ fns, F.modName = m ∧ F.name = f ∧ ∃ Lx ∈ allLoopsList F.topLoops,
        isLoopPerforable env Lx.data = true ∧ stringifyLoop Lx.data = fp := by
  rw [runOnModule_spec]
  simp [catContains, findKey]

/-- C5: a loop whose `(module, function, fingerprint)` key is absent from the
rate table is left unmodified — `runOnLoop` returns at the membership test,
declaring the loop unchanged and touching nothing. -/
theorem C5_absent_entry_skipped (tbl : RateTable) (env : IREnv) (L : Loop)
    (h : rtContains tbl L.data.parentModName L.data.parentFuncName (stringifyLoop L.data) = false) :
    runOnLoop tbl env L = RunResult.skipped :=
  runOnLoop_eq_skipped tbl env L h

/-- C5 witness: the sample loop against a table keyed under another module. -/
theorem C5_absent_entry_skipped_witness :
    rtContains tblAbsent LW.data.parentModName LW.data.parentFuncName (stringifyLoop LW.data) = false ∧
    runOnLoop tblAbsent envW LW = RunResult.skipped :=
  ⟨by decide, C5_absent_entry_skipped tblAbsent envW LW (by decide)⟩

/-- C6: `isLoopPerforable` returns `true` exactly when none of the five
ineligibility conditions hold — the function name is free of `NO_PERF`, the
loop is in simplified form, a canonical induction variable exists, some
incoming value of it is also one of its users (the `ValueToChange` search
succeeds), and that update value is a binary operator.  The conditions are
evaluated in this order with short-circuiting in the definition itself. -/
theorem C6_eligibility_characterization (env : IREnv) (d : LoopData) :
    isLoopPerforable env d = true ↔
      (strContains d.parentFuncName "NO_PERF" = false ∧ d.simplifyForm = true ∧
       ∃ phi, d.canonicalIV = some phi ∧
         ∃ v, findValueToChange phi = some v ∧ (getBinop env v).isSome = true) :=
  elig_iff env d

/-- C7: the fingerprint reads only the loop's member-block list (in its
enumeration order), its header, and its latch and exiting classifications —
two loops agreeing on those produce identical strings, so an unchanged loop
structure always fingerprints identically. -/
theorem C7_fingerprint_deterministic (d1 d2 : LoopData)
    (hb : d1.blocks = d2.blocks) (hh : d1.header = d2.header)
    (hl : d1.latches = d2.latches) (he : d1.exitingBlocks = d2.exitingBlocks) :
    stringifyLoop d1 = stringifyLoop d2 := by
  unfold stringifyLoop
  rw [hb, hh, hl, he]

/-- C7 witness: the sample loop and its relocation into another function
share all structural fields, hence the fingerprint. -/
theorem C7_fingerprint_deterministic_witness :
    (dW.blocks = dNP.blocks ∧ dW.header = dNP.header ∧ dW.latches = dNP.latches ∧
      dW.exitingBlocks = dNP.exitingBlocks) ∧
    stringifyLoop dW = stringifyLoop dNP :=
  ⟨⟨rfl, rfl, rfl, rfl⟩, C7_fingerprint_deterministic dW dNP rfl rfl rfl rfl⟩

/-- C9: the Discovery Pass reports "no change" for every function — the
second component of `runOnFunction` is always `false` — and its only output
is the accumulated catalog of `handleLoops`; the model's `runOnFunction`
returns no modified IR at all, mirroring a pass that never writes to it. -/
theorem C9_discovery_never_changes (env : IREnv) (F : Function) (cat : Catalog) :
    (runOnFunction env F cat).2 = false ∧
    (runOnFunction env F cat).1 = (handleLoops env F.modName F.name F.topLoops (cat, 0)).1 :=
  ⟨rfl, rfl⟩

/-- C2: for a loop whose key is present in the rate table with integer rate
`R` and whose structure still yields the cataloged derivation (canonical IV
`phi`, update value `v`, a binary operator with operands `ops` whose first
non-IV operand sits at position `i`), `runOnLoop` returns `true` exactly once
— the single `changed` result — having replaced exactly position `i` with a
signed constant of the replaced operand's own type; every other operand,
including a possible second non-IV operand, reads back unchanged; and for a
rate that fits the operand's signed width the new constant's signed value is
exactly `R`. -/
theorem C2_roundtrip_rewrite (tbl : RateTable) (env : IREnv) (L : Loop) (phi : CanonicalPhi)
    (v op : Value) (ops : List Value) (R : Int) (i : Nat)
    (hlook : lookupRate tbl L.data.parentModName L.data.parentFuncName
      (stringifyLoop L.data) = some R)
    (hphi : L.data.canonicalIV = some phi)
    (hv : findValueToChangeRW phi = some v)
    (hops : getBinop env v = some ops)
    (hbefore : ∀ k, k < i → ops.get? k = some phi.self)
    (hop : ops.get? i = some op)
    (hne : op ≠ phi.self)
    (hR : -(2 ^ 31) ≤ R ∧ R < 2 ^ 31) :
    runOnLoop tbl env L = RunResult.changed v (ops.set i (ConstantInt.get op.width R)) ∧
    (∀ k, k ≠ i → (ops.set i (ConstantInt.get op.width R)).get? k = ops.get? k) ∧
    (0 < op.width → -(2 ^ (op.width - 1)) ≤ R → R < 2 ^ (op.width - 1) →
      signedValue (ConstantInt.get op.width R) = some R) := by
  have hrt := rtContains_of_lookup tbl L.data.parentModName L.data.parentFuncName
    (stringifyLoop L.data) R hlook
  have hrate : effectiveRate tbl L.data.parentModName L.data.parentFuncName
      (stringifyLoop L.data) = R := by
    rw [effectiveRate_of_lookup tbl _ _ _ R hlook,
      wrapSigned_eq_self 32 R (by norm_num) hR.1 hR.2]
  have hscan := rewriteScan_spec tbl L.data.parentModName L.data.parentFuncName
    (stringifyLoop L.data) phi.self ops i op hbefore hop hne
  rw [hrate] at hscan
  refine ⟨?_, ?_, ?_⟩
  · unfold runOnLoop
    rw [hrt]
    simp only [Bool.true_eq_false, if_false, hphi, hv, hops, hscan]
  · intro k hk
    exact List.get?_set_ne _ _ (Ne.symm hk)
  · intro hw hlo hhi
    have hws : toSigned op.width (R % 2 ^ op.width) = R :=
      wrapSigned_eq_self op.width R hw hlo hhi
    simp only [ConstantInt.get, signedValue]
    rw [hws]

/-- C2 witness: the sample loop under rate `4` — the increment's constant
operand (position 1; position 0 is the induction variable) becomes the
32-bit signed constant `4`, the other operand is untouched, and the new
constant's signed value is `4`. -/
theorem C2_roundtrip_rewrite_witness :
    lookupRate tblW LW.data.parentModName LW.data.parentFuncName
      (stringifyLoop LW.data) = some 4 ∧
    runOnLoop tblW envW LW =
      RunResult.changed (Value.ref 1 32) (opsW.set 1 (ConstantInt.get 32 4)) ∧
    signedValue (ConstantInt.get 32 4) = some 4 := by
  have h := C2_roundtrip_rewrite tblW envW LW phiW (Value.ref 1 32) (Value.constInt 32 1)
    opsW 4 1
    (by decide) rfl rfl rfl
    (fun k hk => by
      have hk0 : k = 0 := by omega
      subst hk0; rfl)
    rfl (by decide) ⟨by norm_num, by norm_num⟩
  exact ⟨by decide, h.1, h.2.2 (by decide) (by decide) (by decide)⟩

/-- C8: the eligibility predicate and the rewrite pass's re-derivation are
pure functions of the same loop data — the rewrite-side `ValueToChange`
search (a verbatim copy in the source) coincides with the discovery-side one
on every PHI, and on an eligible loop the re-derivation reaches the very same
induction variable and the same increment binary operation the eligibility
check found, never a null. -/
theorem C8_rederivation_agrees (env : IREnv) (d : LoopData) (phi : CanonicalPhi)
    (helig : isLoopPerforable env d = true) (hphi : d.canonicalIV = some phi) :
    findValueToChangeRW phi = findValueToChange phi ∧
    ∃ v ops, findValueToChangeRW phi = some v ∧ findValueToChange phi = some v ∧
      getBinop env v = some ops := by
  refine ⟨findValueToChangeRW_eq phi, ?_⟩
  rcases (elig_iff env d).1 helig with ⟨-, -, phi1, hphi1, v, hv, hbin⟩
  rw [hphi] at hphi1
  obtain rfl : phi = phi1 := Option.some.inj hphi1
  rcases Option.isSome_iff_exists.1 hbin with ⟨ops, hops⟩
  exact ⟨v, ops, (findValueToChangeRW_eq phi).trans hv, hv, hops⟩

/-- C8 witness: the sample eligible loop; both searches find the increment
`Value.ref 1`, a binary operation. -/
theorem C8_rederivation_agrees_witness :
    isLoopPerforable envW dW = true ∧
    (findValueToChangeRW phiW = findValueToChange phiW ∧
      ∃ v ops, findValueToChangeRW phiW = some v ∧ findValueToChange phiW = some v ∧
        getBinop envW v = some ops) :=
  ⟨by decide, C8_rederivation_agrees envW dW phiW (by decide) rfl⟩

/-- C10: a loop that reaches the mutation path (its key is in the table) and
still satisfies the eligibility conditions it was cataloged under — with the
canonical-IV query keeping its LLVM contract, under which the update value is
`add PHI, 1` — is rewritten outright: the re-derivation meets no null PHI, no
null `dyn_cast` result, and the increment has an operand distinct from the
IV, so `runOnLoop` returns `changed` and the trailing "should never reach
here" fall-through (as well as the crash outcomes) is unreachable. -/
theorem C10_mutation_path_total (tbl : RateTable) (env : IREnv) (L : Loop)
    (phi : CanonicalPhi)
    (hmem : rtContains tbl L.data.parentModName L.data.parentFuncName
      (stringifyLoop L.data) = true)
    (helig : isLoopPerforable env L.data = true)
    (hphi : L.data.canonicalIV = some phi)
    (hguar : CanonicalIVGuarantee env phi) :
    ∃ v newOps, runOnLoop tbl env L = RunResult.changed v newOps := by
  rcases (elig_iff env L.data).1 helig with ⟨-, -, phi1, hphi1, v, hv, hbin⟩
  rw [hphi] at hphi1
  obtain rfl : phi = phi1 := Option.some.inj hphi1
  rcases Option.isSome_iff_exists.1 hbin with ⟨ops, hops⟩
  rcases findValueToChange_mem phi v hv with ⟨hvin, hvus⟩
  rcases hguar.2 v hvin hvus with ⟨w, hops1⟩
  rw [hops] at hops1
  obtain rfl : ops = [phi.self, Value.constInt w 1] := Option.some.inj hops1
  rcases hguar.1 with ⟨i0, w0, hself⟩
  have hne : Value.constInt w 1 ≠ phi.self := by
    rw [hself]; exact fun hc => Value.noConfusion hc
  have hscan := rewriteScan_spec tbl L.data.parentModName L.data.parentFuncName
    (stringifyLoop L.data) phi.self [phi.self, Value.constInt w 1] 1 (Value.constInt w 1)
    (fun k hk => by
      have hk0 : k = 0 := by omega
      subst hk0; rfl)
    rfl hne
  refine ⟨v, [phi.self, Value.constInt w 1].set 1
    (ConstantInt.get (Value.constInt w 1).width
      (effectiveRate tbl L.data.parentModName L.data.parentFuncName (stringifyLoop L.data))), ?_⟩
  unfold runOnLoop
  rw [hmem]
  simp only [Bool.true_eq_false, if_false, hphi, findValueToChangeRW_eq phi, hv, hops, hscan]

/-- C10 witness: the sample loop, whose canonical IV satisfies the LLVM
contract, under the rate table `tblW`. -/
theorem C10_mutation_path_total_witness :
    (rtContains tblW LW.data.parentModName LW.data.parentFuncName
        (stringifyLoop LW.data) = true ∧
      isLoopPerforable envW LW.data = true ∧ CanonicalIVGuarantee envW phiW) ∧
    ∃ v newOps, runOnLoop tblW envW LW = RunResult.changed v newOps := by
  have hguar : CanonicalIVGuarantee envW phiW := by
    constructor
    · exact ⟨0, 32, rfl⟩
    · intro v hv hu
      have hv1 : v = Value.constInt 32 0 ∨ v = Value.ref 1 32 := by
        simpa [phiW] using hv
      rcases hv1 with h | h
      · subst h
        simp [phiW] at hu
      · subst h
        exact ⟨32, rfl⟩
  exact ⟨⟨by decide, by decide, hguar⟩,
    C10_mutation_path_total tblW envW LW phiW (by decide) (by decide) rfl hguar⟩

end LoopPerf
